import Mathlib

/-!
Verification development for `email-expirer.py`.

The program manages Gmail threads through label state:

* a countdown state machine over bucket labels `x0 .. x7` plus the terminal
  `auto-archived` label (`add_inbox_expiration`, `step_expiration`,
  `strip_tags_on_archived_emails`);
* an independent age annotator that sweeps all labels matching the pattern
  `^⌛[ /]\d+` and re-attaches one coarse age label per qualifying inbox
  thread (`remove_all_age_labels`, `add_age_label`, `append_too_old_labels`);
* a paginated thread fetcher (`fetch_all_threads`).

Modeling conventions:

* Label identifiers are modeled by label names.  After `setup`, the registry
  maps each name to a unique opaque id, and every pass first resolves names
  via `get_label_id`/`day_labels`; the bijection lets us identify the two.
* A Gmail thread is an id, a label set (modeled as a `List String` with set
  semantics for `threads().modify`), and its messages.  The only message
  attribute the program reads is the timestamp of the last message, and only
  through `date_diff_in_days(last_msg_date, now)`; each message is therefore
  modeled by that whole-day age (an `Int`), fixed for the run.
* `threads().modify` with `removeLabelIds`/`addLabelIds` removes then adds,
  with set semantics (adding a present label or removing an absent one is a
  no-op).
* CPython's `round` is round-half-to-even on the exact quotient; the float
  division `age / 31` is modeled as exact rational division.
-/

/-- Configured inbox retention window (`INBOX_DAYS = 7`). -/
def INBOX_DAYS : Nat := 7
/-- Minimum whole-day age before an age label is attached
(`MIN_AGE_TO_APPEND_LABEL = 21`). -/
def MIN_AGE_TO_APPEND_LABEL : Int := 21
/-- Namespace prefix for age labels (`LABEL_PREFIX = "⌛/"` in the source). -/
def LABEL_NS : String := "⌛/"
/-- Countdown bucket label name `f"x{i}"`. -/
def xLabel (i : Nat) : String := "x" ++ toString i
/-- A Gmail thread: opaque id, attached label names, and the whole-day ages
of its messages (oldest first; the program reads `messages[-1]`). -/
structure MThread where
  id : Nat
  labels : List String
  messages : List Int
deriving DecidableEq
/-- The thread store of one mailbox. -/
abbrev Mailbox := List MThread
/-- Whether a thread currently carries label `l` (`label:l` in a query). -/
def hasLabel (t : MThread) (l : String) : Bool := t.labels.contains l
/-- Effect of one `threads().modify` body on a label set: remove
`removeIds`, then add the labels of `addIds` that are not yet present. -/
def applyLabels (ls removeIds addIds : List String) : List String :=
  let kept := ls.filter (fun l => !(removeIds.contains l))
  kept ++ addIds.filter (fun l => !(kept.contains l))
/-- Apply a label-set transformation to the thread with id `tid`. -/
def applyTo (box : Mailbox) (tid : Nat) (f : List String → List String) : Mailbox :=
  box.map (fun t => if t.id = tid then ⟨t.id, f t.labels, t.messages⟩ else t)
/-- `service.users().threads().modify(...)` with `removeLabelIds` and
`addLabelIds` on thread `tid`. -/
def modifyThread (box : Mailbox) (tid : Nat) (removeIds addIds : List String) : Mailbox :=
  applyTo box tid (fun ls => applyLabels ls removeIds addIds)
/-- The query of `add_inbox_expiration`:
`in:inbox -is:starred -label:x0 ... -label:x7`. -/
def matchesAdmission (t : MThread) : Bool :=
  hasLabel t "INBOX" && !(hasLabel t "STARRED") &&
    (List.range (INBOX_DAYS + 1)).all (fun i => !(hasLabel t (xLabel i)))
/-- `add_inbox_expiration`: attach `x7` to every inbox, unstarred thread
holding none of the bucket labels.  The thread list is fetched once up
front, then each thread is modified. -/
def add_inbox_expiration (box : Mailbox) : Mailbox :=
  (box.filter matchesAdmission).foldl
    (fun b t => modifyThread b t.id [] [xLabel INBOX_DAYS]) box
/-- One iteration of the outer loop of `step_expiration` for bucket `i`:
fetch `label:x{i}` from the current store, then for each such thread either
archive it (`i = 0`: remove `x0`, add `auto-archived`, then a second call
removing `INBOX`) or move it down one bucket. -/
def stepBucket (box : Mailbox) (i : Nat) : Mailbox :=
  (box.filter (fun t => hasLabel t (xLabel i))).foldl
    (fun b t =>
      if i = 0 then
        modifyThread (modifyThread b t.id [xLabel i] ["auto-archived"]) t.id ["INBOX"] []
      else
        modifyThread b t.id [xLabel i] [xLabel (i - 1)])
    box
/-- `step_expiration` with an explicit processing order of the buckets. -/
def step_expiration_order (box : Mailbox) (order : List Nat) : Mailbox :=
  order.foldl stepBucket box
/-- `step_expiration`: the source iterates `for i in range(INBOX_DAYS + 1)`,
i.e. buckets 0, 1, ..., 7 in ascending order. -/
def step_expiration (box : Mailbox) : Mailbox :=
  step_expiration_order box (List.range (INBOX_DAYS + 1))
/-- One iteration of `strip_tags_on_archived_emails` for bucket `i`:
fetch `-in:inbox label:x{i}`, then remove `x{i}` from each result. -/
def stripBucket (box : Mailbox) (i : Nat) : Mailbox :=
  (box.filter (fun t => !(hasLabel t "INBOX") && hasLabel t (xLabel i))).foldl
    (fun b t => modifyThread b t.id [xLabel i] []) box
/-- `strip_tags_on_archived_emails`: for each bucket `i` in 0..7, strip
`x{i}` from threads that are no longer in the inbox. -/
def strip_tags_on_archived_emails (box : Mailbox) : Mailbox :=
  (List.range (INBOX_DAYS + 1)).foldl stripBucket box
/-- Number of countdown bucket labels `x0 .. x7` a thread carries. -/
def bucketCount (t : MThread) : Nat :=
  ((List.range (INBOX_DAYS + 1)).filter (fun i => hasLabel t (xLabel i))).length
/-- Number of countdown labels (buckets plus `auto-archived`) a thread
carries; the spec's invariant is that this is at most one. -/
def countdownCount (t : MThread) : Nat :=
  bucketCount t + (if hasLabel t "auto-archived" then 1 else 0)
/-- CPython `round`: nearest integer, ties to even, on the exact value. -/
def pyRound (q : ℚ) : ℤ :=
  if Int.fract q = 1 / 2 then (if 2 ∣ ⌊q⌋ then ⌊q⌋ else ⌊q⌋ + 1) else round q
/-- The `age_string` computed by `add_age_label`:
days below 31, else months `round(age / 31)` below 365, else years
`round(age / 365)`. -/
def age_string (age : ℤ) : String :=
  if age < 31 then toString age ++ "d"
  else if age < 365 then toString (pyRound ((age : ℚ) / 31)) ++ "m"
  else toString (pyRound ((age : ℚ) / 365)) ++ "y"
/-- Variant of `age_string` that rounds halves up (Mathlib's `round`)
instead of CPython's half-to-even; used to compare the two rounding rules. -/
def age_string_halfup (age : ℤ) : String :=
  if age < 31 then toString age ++ "d"
  else if age < 365 then toString (round ((age : ℚ) / 31)) ++ "m"
  else toString (round ((age : ℚ) / 365)) ++ "y"
/-- The label decision `append_too_old_labels` makes for an inbox thread of
whole-day age `age`: skip below the threshold, else attach the prefixed age
label. -/
def annotate_label (age : ℤ) : Option String :=
  if MIN_AGE_TO_APPEND_LABEL ≤ age then some (LABEL_NS ++ age_string age) else none
/-- The regex `^⌛[ /]\d+` of `remove_all_age_labels`, as a match test on
a label name ( `\d+` matches iff one leading digit does). -/
def age_label_matches (s : String) : Bool :=
  match s.data with
  | c0 :: c1 :: c2 :: _ => c0 = '⌛' && (c1 = ' ' || c1 = '/') && c2.isDigit
  | _ => false
/-- Mailbox state including the label registry (label names; ids are
modeled by names). -/
structure MailState where
  labels : List String
  threads : Mailbox
deriving DecidableEq
/-- `labels().delete`: deleting a label removes it from the registry and
from every thread that carries it. -/
def delete_label (s : MailState) (name : String) : MailState :=
  ⟨s.labels.filter (fun n => !(n == name)),
   s.threads.map (fun t => ⟨t.id, t.labels.filter (fun n => !(n == name)), t.messages⟩)⟩
/-- `remove_all_age_labels`: delete every registry label whose name matches
the age pattern. -/
def remove_all_age_labels (s : MailState) : MailState :=
  (s.labels.filter age_label_matches).foldl delete_label s
/-- `get_or_create_label`: ensure a label of this name exists (its id is the
name in this model). -/
def get_or_create_label (s : MailState) (label_name : String) : MailState :=
  if s.labels.contains label_name then s else ⟨s.labels ++ [label_name], s.threads⟩
/-- `add_age_label`: build the label name from the age, get-or-create it,
and add it to the thread. -/
def add_age_label (s : MailState) (tid : Nat) (age : Int) : MailState :=
  let label_name := LABEL_NS ++ age_string age
  let s1 := get_or_create_label s label_name
  ⟨s1.labels, modifyThread s1.threads tid [] [label_name]⟩
/-- `append_too_old_labels`: sweep all age labels, then for every inbox
thread with at least one message, compute the whole-day age of the last
message and attach an age label when it reaches the threshold. -/
def append_too_old_labels (s : MailState) : MailState :=
  let s1 := remove_all_age_labels s
  (s1.threads.filter (fun t => hasLabel t "INBOX")).foldl
    (fun st t =>
      match t.messages.getLast? with
      | none => st
      | some age =>
        if MIN_AGE_TO_APPEND_LABEL ≤ age then add_age_label st t.id age else st)
    s1
/-- One page of `threads().list`: the thread references of the page and the
continuation token. -/
structure PageResponse where
  threads : List Nat
  nextPageToken : Option Nat
/-- The fetch loop of `fetch_all_threads`: extend the accumulator with the
current page and follow `nextPageToken` until the store reports none.  The
fuel argument only bounds the number of remote calls; it is instantiated
large enough that the loop always ends by exhausting the pages. -/
def fetchLoop (store : Option Nat → PageResponse) : Nat → List Nat → Option Nat → List Nat
  | 0, acc, _ => acc
  | fuel + 1, acc, tok =>
    let r := store tok
    let acc' := acc ++ r.threads
    match r.nextPageToken with
    | none => acc'
    | some t => fetchLoop store fuel acc' (some t)
/-- A remote store whose result set is split into the given pages: page `k`
is served for token `k` (no token means the first page), with a
continuation token exactly when further pages remain. -/
def pagedStore (pages : List (List Nat)) (tok : Option Nat) : PageResponse :=
  let k := tok.getD 0
  ⟨(pages.drop k).headD [], if (pages.drop k).length ≤ 1 then none else some (k + 1)⟩
/-- `fetch_all_threads` against a store serving the given pages. -/
def fetch_all_threads (pages : List (List Nat)) : List Nat :=
  fetchLoop (pagedStore pages) pages.length [] none
/-- The per-thread label update of bucket `i` in `step_expiration`:
archive at bucket 0, otherwise move down one bucket. -/
def stepFn (i : Nat) (ls : List String) : List String :=
  if i = 0 then applyLabels (applyLabels ls [xLabel 0] ["auto-archived"]) ["INBOX"] []
  else applyLabels ls [xLabel i] [xLabel (i - 1)]
/-- The per-thread effect of processing bucket `i`. -/
def stepOne (i : Nat) (v : MThread) : MThread :=
  if hasLabel v (xLabel i) then ⟨v.id, stepFn i v.labels, v.messages⟩ else v
/-- The per-thread effect of processing the buckets of `order` in turn. -/
def stepThreadFold (order : List Nat) (u : MThread) : MThread :=
  order.foldl (fun v i => stepOne i v) u
/-- The ids of the threads matching `label:l`. -/
def threadIdsWith (box : Mailbox) (l : String) : List Nat :=
  (box.filter (fun t => hasLabel t l)).map MThread.id
/-- The single-step advance of one thread's label set: find its (unique)
bucket, archive at bucket 0, else move down one bucket. -/
def advanceLabels (ls : List String) : List String :=
  match (List.range (INBOX_DAYS + 1)).find? (fun i => ls.contains (xLabel i)) with
  | some i => stepFn i ls
  | none => ls
/-- The single-step advance of one thread. -/
def advanceThread (t : MThread) : MThread :=
  ⟨t.id, advanceLabels t.labels, t.messages⟩
/-- The per-thread effect of `stripBucket i`. -/
def stripOne (i : Nat) (v : MThread) : MThread :=
  if !(hasLabel v "INBOX") && hasLabel v (xLabel i) then
    ⟨v.id, applyLabels v.labels [xLabel i] [], v.messages⟩
  else v
/-- The per-thread effect of the whole strip pass. -/
def stripThreadFold (order : List Nat) (u : MThread) : MThread :=
  order.foldl (fun v i => stripOne i v) u
/-- The annotation decision for one thread of the snapshot: the name of the
age label to attach, if any (`messages[-1]`, threshold check, then the
`add_age_label` name). -/
def processThread (t : MThread) : Option String :=
  match t.messages.getLast? with
  | none => none
  | some age =>
    if MIN_AGE_TO_APPEND_LABEL ≤ age then some (LABEL_NS ++ age_string age) else none
/-- The loop body of `append_too_old_labels`. -/
def attachStep (st : MailState) (t : MThread) : MailState :=
  match t.messages.getLast? with
  | none => st
  | some age =>
    if MIN_AGE_TO_APPEND_LABEL ≤ age then add_age_label st t.id age else st
/-- The per-thread label-set effect of one attach step. -/
def attachFn (t : MThread) (ls : List String) : List String :=
  match processThread t with
  | none => ls
  | some nm => applyLabels ls [] [nm]

/-! ### Theorems -/

/-! ### Basic lemmas about label sets and keyed updates -/

theorem hasLabel_iff (t : MThread) (l : String) : hasLabel t l = true ↔ l ∈ t.labels := by
  simp [hasLabel]

theorem mem_applyLabels {l : String} {ls removeIds addIds : List String} :
    l ∈ applyLabels ls removeIds addIds ↔ ((l ∈ ls ∧ l ∉ removeIds) ∨ l ∈ addIds) := by
  simp only [applyLabels, List.mem_append, List.mem_filter, List.elem_eq_mem,
    Bool.not_eq_true', decide_eq_false_iff_not]
  constructor
  · rintro (⟨h1, h2⟩ | ⟨h1, _⟩)
    · exact Or.inl ⟨h1, h2⟩
    · exact Or.inr h1
  · rintro (⟨h1, h2⟩ | h1)
    · exact Or.inl ⟨h1, h2⟩
    · by_cases hk : l ∈ ls ∧ l ∉ removeIds
      · exact Or.inl hk
      · exact Or.inr ⟨h1, fun hc => hk ⟨hc.1, hc.2⟩⟩

theorem applyTo_id (box : Mailbox) (tid : Nat) :
    applyTo box tid (fun ls => ls) = box := by
  unfold applyTo
  have : ∀ t : MThread, (if t.id = tid then (⟨t.id, t.labels, t.messages⟩ : MThread) else t) = t := by
    intro t; split <;> rfl
  simp only [this, List.map_id']

theorem applyTo_applyTo (box : Mailbox) (tid : Nat) (g h : List String → List String) :
    applyTo (applyTo box tid g) tid h = applyTo box tid (fun ls => h (g ls)) := by
  unfold applyTo
  rw [List.map_map]
  apply List.map_congr_left
  intro t _
  by_cases ht : t.id = tid <;> simp [Function.comp, ht]

theorem applyTo_ids (box : Mailbox) (tid : Nat) (f : List String → List String) :
    (applyTo box tid f).map MThread.id = box.map MThread.id := by
  unfold applyTo
  rw [List.map_map]
  apply List.map_congr_left
  intro t _
  by_cases ht : t.id = tid <;> simp [Function.comp, ht]

/-- A left fold of keyed label updates over a snapshot list `ts` acts on each
store entry `u` by folding the updates of the snapshot entries that share
`u`'s id. -/
theorem foldl_applyTo (f : MThread → List String → List String) (ts : List MThread) :
    ∀ box : Mailbox,
      ts.foldl (fun b t => applyTo b t.id (f t)) box
        = box.map (fun u =>
            ⟨u.id, (ts.filter (fun t => t.id == u.id)).foldl (fun ls t => f t ls) u.labels,
              u.messages⟩) := by
  induction ts with
  | nil =>
    intro box
    simp only [List.foldl_nil, List.filter_nil]
    exact (List.map_id' box).symm
  | cons t ts ih =>
    intro box
    rw [List.foldl_cons, ih, applyTo, List.map_map]
    apply List.map_congr_left
    intro u _
    by_cases hu : u.id = t.id
    · simp only [Function.comp, hu, if_pos rfl, List.filter_cons, beq_self_eq_true,
        if_pos trivial, List.foldl_cons]
    · have hne : (t.id == u.id) = false := by
        simp only [beq_eq_false_iff_ne]
        exact fun hc => hu hc.symm
      simp [Function.comp, if_neg hu, List.filter_cons, hne]

/-- In a store with unique thread ids, the entries sharing a member's id and
satisfying `q` are exactly that member (when it satisfies `q`). -/
theorem filter_id_pred (q : MThread → Bool) (u : MThread) :
    ∀ box : Mailbox, (box.map MThread.id).Nodup → u ∈ box →
      box.filter (fun t => q t && (t.id == u.id)) = if q u then [u] else [] := by
  intro box
  induction box with
  | nil => intro _ hu; cases hu
  | cons v rest ih =>
    intro hids hu
    rw [List.map_cons, List.nodup_cons] at hids
    rcases List.mem_cons.mp hu with h | h
    · subst h
      have hrest : rest.filter (fun t => q t && (t.id == u.id)) = [] := by
        rw [List.filter_eq_nil_iff]
        intro a ha hqa
        have : a.id = u.id := by
          have := (Bool.and_eq_true _ _).mp hqa
          exact beq_iff_eq.mp this.2
        exact hids.1 (this ▸ List.mem_map_of_mem MThread.id ha)
      by_cases hq : q u
      · rw [List.filter_cons, if_pos (by simp [hq]), hrest, if_pos hq]
      · rw [List.filter_cons, if_neg (by simp [hq]), hrest, if_neg hq]
    · have hvne : (v.id == u.id) = false := by
        have : v.id ≠ u.id := by
          intro hc
          exact hids.1 (hc ▸ List.mem_map_of_mem MThread.id h)
        simp [this]
      rw [List.filter_cons, if_neg (by simp [hvne]), ih hids.2 h]

/-- Corollary of `filter_id_pred` for the plain id filter. -/
theorem filter_id_eq (u : MThread) (box : Mailbox)
    (hids : (box.map MThread.id).Nodup) (hu : u ∈ box) :
    box.filter (fun t => t.id == u.id) = [u] := by
  have h := filter_id_pred (fun _ => true) u box hids hu
  simpa using h

/-! ### Characterizing the countdown passes as per-thread maps -/

theorem hasLabel_eq_false_iff (t : MThread) (l : String) :
    hasLabel t l = false ↔ l ∉ t.labels := by
  rw [Bool.eq_false_iff, Ne, hasLabel_iff]

theorem stepBucket_foldl (box : Mailbox) (i : Nat) :
    stepBucket box i
      = (box.filter (fun t => hasLabel t (xLabel i))).foldl
          (fun b t => applyTo b t.id (stepFn i)) box := by
  have hbody : (fun (b : Mailbox) (t : MThread) =>
      if i = 0 then
        modifyThread (modifyThread b t.id [xLabel i] ["auto-archived"]) t.id ["INBOX"] []
      else
        modifyThread b t.id [xLabel i] [xLabel (i - 1)])
      = fun b t => applyTo b t.id (stepFn i) := by
    funext b t
    by_cases h : i = 0
    · subst h
      show modifyThread (modifyThread b t.id [xLabel 0] ["auto-archived"]) t.id ["INBOX"] []
          = applyTo b t.id (stepFn 0)
      rw [modifyThread, modifyThread, applyTo_applyTo]
      congr 1
    · rw [if_neg h, modifyThread]
      congr 1
      funext ls
      simp [stepFn, h]
  rw [stepBucket, hbody]

theorem stepBucket_char (box : Mailbox) (i : Nat) (hids : (box.map MThread.id).Nodup) :
    stepBucket box i = box.map (stepOne i) := by
  rw [stepBucket_foldl, foldl_applyTo]
  apply List.map_congr_left
  intro u hu
  rw [List.filter_filter]
  have hcomm : box.filter (fun t => (t.id == u.id) && hasLabel t (xLabel i))
      = box.filter (fun t => hasLabel t (xLabel i) && (t.id == u.id)) :=
    List.filter_congr (by intro x _; rw [Bool.and_comm])
  rw [hcomm, filter_id_pred (fun t => hasLabel t (xLabel i)) u box hids hu]
  by_cases hq : hasLabel u (xLabel i)
  · rw [if_pos hq]
    simp only [List.foldl_cons, List.foldl_nil, stepOne, if_pos hq]
  · rw [if_neg hq]
    simp only [List.foldl_nil, stepOne, if_neg hq]

theorem stepBucket_ids (box : Mailbox) (i : Nat) :
    (stepBucket box i).map MThread.id = box.map MThread.id := by
  rw [stepBucket_foldl, foldl_applyTo, List.map_map]
  rfl

theorem step_order_char (order : List Nat) :
    ∀ box : Mailbox, (box.map MThread.id).Nodup →
      step_expiration_order box order = box.map (stepThreadFold order) := by
  induction order with
  | nil =>
    intro box _
    simp only [step_expiration_order, List.foldl_nil, stepThreadFold]
    exact (List.map_id' box).symm
  | cons i order ih =>
    intro box hids
    have h1 : step_expiration_order box (i :: order)
        = step_expiration_order (stepBucket box i) order := rfl
    have hids' : ((stepBucket box i).map MThread.id).Nodup := by
      rw [stepBucket_ids]; exact hids
    rw [h1, ih _ hids', stepBucket_char box i hids, List.map_map]
    apply List.map_congr_left
    intro u _
    rfl

theorem stepThreadFold_skip (order : List Nat) :
    ∀ v : MThread, (∀ i ∈ order, hasLabel v (xLabel i) = false) →
      stepThreadFold order v = v := by
  induction order with
  | nil => intro v _; rfl
  | cons i order ih =>
    intro v h
    have h0 := h i (List.mem_cons_self i order)
    have hstep : stepOne i v = v := by rw [stepOne, h0]; rfl
    show stepThreadFold order (stepOne i v) = v
    rw [hstep]
    exact ih v (fun j hj => h j (List.mem_cons_of_mem i hj))

theorem stepOne_id (i : Nat) (v : MThread) : (stepOne i v).id = v.id := by
  rw [stepOne]; split <;> rfl

theorem stepThreadFold_id (order : List Nat) :
    ∀ v : MThread, (stepThreadFold order v).id = v.id := by
  induction order with
  | nil => intro v; rfl
  | cons i order ih =>
    intro v
    show (stepThreadFold order (stepOne i v)).id = v.id
    rw [ih, stepOne_id]

theorem xLabel_injOn :
    ∀ i < INBOX_DAYS + 1, ∀ j < INBOX_DAYS + 1, xLabel i = xLabel j → i = j := by decide

theorem xLabel_ne_special :
    ∀ i < INBOX_DAYS + 1,
      xLabel i ≠ "auto-archived" ∧ xLabel i ≠ "INBOX" ∧ xLabel i ≠ "STARRED" := by decide

theorem mem_stepFn_zero (ls : List String) (l : String) :
    l ∈ stepFn 0 ls ↔ (((l ∈ ls ∧ l ≠ xLabel 0) ∨ l = "auto-archived") ∧ l ≠ "INBOX") := by
  show l ∈ applyLabels (applyLabels ls [xLabel 0] ["auto-archived"]) ["INBOX"] [] ↔ _
  simp only [mem_applyLabels, List.mem_singleton, List.not_mem_nil, or_false]

theorem mem_stepFn_pos (i : Nat) (hi : i ≠ 0) (ls : List String) (l : String) :
    l ∈ stepFn i ls ↔ ((l ∈ ls ∧ l ≠ xLabel i) ∨ l = xLabel (i - 1)) := by
  simp only [stepFn, if_neg hi, mem_applyLabels, List.mem_singleton]

/-- Splitting bucket range `0..N` around a distinguished bucket `j`. -/
theorem range_split (j n : Nat) (hj : j < n) :
    List.range n = List.range j ++ j :: List.range' (j + 1) (n - j - 1) := by
  have h1 : j :: List.range' (j + 1) (n - j - 1) = List.range' j (n - j) := by
    have h2 := List.range'_succ j (n - j - 1) 1
    rw [← h2]
    congr 1
    omega
  rw [h1, List.range_eq_range', List.range_eq_range']
  have h2 := List.range'_append 0 j (n - j) 1
  simp only [Nat.zero_add, Nat.one_mul] at h2
  rw [h2]
  congr 1
  omega

/-- Under the at-most-one-bucket invariant, one ascending pass over all
buckets updates a thread carrying bucket `j` exactly once, with `stepFn j`. -/
theorem stepThreadFold_eval (u : MThread) (j : Nat) (hj : j < INBOX_DAYS + 1)
    (hhas : hasLabel u (xLabel j) = true)
    (huniq : ∀ i, i < INBOX_DAYS + 1 → hasLabel u (xLabel i) = true → i = j) :
    stepThreadFold (List.range (INBOX_DAYS + 1)) u
      = ⟨u.id, stepFn j u.labels, u.messages⟩ := by
  rw [range_split j _ hj]
  show stepThreadFold (List.range j ++ j :: List.range' (j + 1) (INBOX_DAYS + 1 - j - 1)) u
      = ⟨u.id, stepFn j u.labels, u.messages⟩
  rw [stepThreadFold, List.foldl_append, List.foldl_cons]
  have h1 : List.foldl (fun v i => stepOne i v) u (List.range j) = u := by
    apply stepThreadFold_skip
    intro i hi
    have hij : i < j := List.mem_range.mp hi
    rw [hasLabel_eq_false_iff]
    intro hmem
    have : i = j := huniq i (by omega) ((hasLabel_iff u (xLabel i)).mpr hmem)
    omega
  rw [show List.foldl (fun v i => stepOne i v) u (List.range j)
        = stepThreadFold (List.range j) u from rfl] at *
  rw [h1]
  have h2 : stepOne j u = ⟨u.id, stepFn j u.labels, u.messages⟩ := by
    rw [stepOne, if_pos hhas]
  rw [h2]
  apply stepThreadFold_skip
  intro i hi
  have hij : j + 1 ≤ i ∧ i < INBOX_DAYS + 1 := by
    have h := List.mem_range'_1.mp hi
    omega
  rw [hasLabel_eq_false_iff]
  show xLabel i ∉ stepFn j u.labels
  intro hmem
  by_cases hj0 : j = 0
  · subst hj0
    rcases (mem_stepFn_zero u.labels (xLabel i)).mp hmem with ⟨h3 | h3, _⟩
    · have : i = 0 := huniq i hij.2 ((hasLabel_iff u (xLabel i)).mpr h3.1)
      omega
    · exact (xLabel_ne_special i hij.2).1 h3
  · rcases (mem_stepFn_pos j hj0 u.labels (xLabel i)).mp hmem with h3 | h3
    · have : i = j := huniq i hij.2 ((hasLabel_iff u (xLabel i)).mpr h3.1)
      omega
    · have : i = j - 1 := xLabel_injOn i hij.2 (j - 1) (by omega) h3
      omega

/-! ### The at-most-one-bucket invariant and conservation under advance -/

/-- A thread with at most one bucket label has either none, or a unique one. -/
theorem bucket_cases (t : MThread) (h : bucketCount t ≤ 1) :
    (∀ i, i < INBOX_DAYS + 1 → hasLabel t (xLabel i) = false)
    ∨ ∃ j, j < INBOX_DAYS + 1 ∧ hasLabel t (xLabel j) = true
        ∧ ∀ i, i < INBOX_DAYS + 1 → hasLabel t (xLabel i) = true → i = j := by
  have hmem : ∀ i : Nat,
      i ∈ (List.range (INBOX_DAYS + 1)).filter (fun i => hasLabel t (xLabel i))
        ↔ i < INBOX_DAYS + 1 ∧ hasLabel t (xLabel i) = true := by
    intro i
    rw [List.mem_filter, List.mem_range]
  cases hL : (List.range (INBOX_DAYS + 1)).filter (fun i => hasLabel t (xLabel i)) with
  | nil =>
    left
    intro i hi
    rw [Bool.eq_false_iff]
    intro htrue
    have : i ∈ ([] : List Nat) := by rw [← hL]; exact (hmem i).mpr ⟨hi, htrue⟩
    cases this
  | cons j rest =>
    have hlen := h
    rw [bucketCount, hL] at hlen
    have hrest : rest = [] := by
      cases rest with
      | nil => rfl
      | cons a l => rw [List.length_cons, List.length_cons] at hlen; omega
    subst hrest
    have hj := (hmem j).mp (by rw [hL]; exact List.mem_cons_self j [])
    right
    refine ⟨j, hj.1, hj.2, fun i hi hhas => ?_⟩
    have : i ∈ [j] := by rw [← hL]; exact (hmem i).mpr ⟨hi, hhas⟩
    exact List.mem_singleton.mp this

theorem mem_threadIdsWith (box : Mailbox) (l : String) (tid : Nat) :
    tid ∈ threadIdsWith box l ↔ ∃ t, t ∈ box ∧ hasLabel t l = true ∧ t.id = tid := by
  simp only [threadIdsWith, List.mem_map, List.mem_filter]
  constructor
  · rintro ⟨t, ⟨h1, h2⟩, h3⟩
    exact ⟨t, h1, h2, h3⟩
  · rintro ⟨t, h1, h2, h3⟩
    exact ⟨t, ⟨h1, h2⟩, h3⟩

/-- C1: conservation under advance.  For every store with unique thread ids
in which each thread holds at most one countdown bucket label, and for every
`i` in `[1, N]`, the set of thread ids holding `bucket[i]` before one
`step_expiration` pass equals the set holding `bucket[i-1]` after it, and
every thread that held `bucket[0]` ends the pass holding `auto-archived`,
holding no bucket label, and absent from the inbox view. -/
theorem step_expiration_conservation (box : Mailbox)
    (hids : (box.map MThread.id).Nodup)
    (hinv : ∀ t ∈ box, bucketCount t ≤ 1) :
    (∀ i, 1 ≤ i → i ≤ INBOX_DAYS → ∀ tid : Nat,
        tid ∈ threadIdsWith box (xLabel i)
          ↔ tid ∈ threadIdsWith (step_expiration box) (xLabel (i - 1)))
    ∧ (∀ t ∈ box, hasLabel t (xLabel 0) = true →
        ∃ u ∈ step_expiration box, u.id = t.id
          ∧ hasLabel u "auto-archived" = true
          ∧ (∀ j, j < INBOX_DAYS + 1 → hasLabel u (xLabel j) = false)
          ∧ hasLabel u "INBOX" = false) := by
  have hchar : step_expiration box = box.map (stepThreadFold (List.range (INBOX_DAYS + 1))) :=
    step_order_char _ box hids
  constructor
  · intro i hi1 hi7 tid
    rw [mem_threadIdsWith, mem_threadIdsWith, hchar]
    constructor
    · rintro ⟨t, htbox, hhas, hid⟩
      refine ⟨stepThreadFold (List.range (INBOX_DAYS + 1)) t, List.mem_map_of_mem _ htbox, ?_,
        by rw [stepThreadFold_id]; exact hid⟩
      rcases bucket_cases t (hinv t htbox) with hnone | ⟨j, hj, hjhas, hjuniq⟩
      · rw [hnone i (by omega)] at hhas
        cases hhas
      · have hij : i = j := hjuniq i (by omega) hhas
        subst hij
        rw [stepThreadFold_eval t i (by omega) hhas hjuniq, hasLabel_iff]
        show xLabel (i - 1) ∈ stepFn i t.labels
        rw [mem_stepFn_pos i (by omega)]
        right
        rfl
    · rintro ⟨u, humem, hhas, hid⟩
      rw [List.mem_map] at humem
      obtain ⟨t, htbox, hut⟩ := humem
      subst hut
      refine ⟨t, htbox, ?_, by rw [stepThreadFold_id] at hid; exact hid⟩
      rcases bucket_cases t (hinv t htbox) with hnone | ⟨j, hj, hjhas, hjuniq⟩
      · rw [stepThreadFold_skip _ t (fun i hi => hnone i (List.mem_range.mp hi))] at hhas
        rw [hnone (i - 1) (by omega)] at hhas
        cases hhas
      · rw [stepThreadFold_eval t j hj hjhas hjuniq] at hhas
        rw [hasLabel_iff] at hhas
        by_cases hj0 : j = 0
        · subst hj0
          exfalso
          rcases (mem_stepFn_zero t.labels (xLabel (i - 1))).mp hhas with ⟨hin | hin, _⟩
          · have h10 := hjuniq (i - 1) (by omega) ((hasLabel_iff _ _).mpr hin.1)
            exact hin.2 (by rw [h10])
          · exact (xLabel_ne_special (i - 1) (by omega)).1 hin
        · rcases (mem_stepFn_pos j hj0 t.labels (xLabel (i - 1))).mp hhas with hin | hin
          · exfalso
            have hji := hjuniq (i - 1) (by omega) ((hasLabel_iff _ _).mpr hin.1)
            exact hin.2 (by rw [hji])
          · have h11 : i - 1 = j - 1 :=
              xLabel_injOn (i - 1) (by omega) (j - 1) (by omega) hin
            have hij : i = j := by omega
            rw [hij]
            exact hjhas
  · intro t htbox h0
    rcases bucket_cases t (hinv t htbox) with hnone | ⟨j, hj, hjhas, hjuniq⟩
    · rw [hnone 0 (by omega)] at h0
      cases h0
    · have hj0 : j = 0 := (hjuniq 0 (by omega) h0).symm
      subst hj0
      refine ⟨stepThreadFold (List.range (INBOX_DAYS + 1)) t, ?_, ?_, ?_, ?_, ?_⟩
      · rw [hchar]
        exact List.mem_map_of_mem _ htbox
      · rw [stepThreadFold_id]
      · rw [stepThreadFold_eval t 0 (by omega) h0 hjuniq, hasLabel_iff]
        show "auto-archived" ∈ stepFn 0 t.labels
        rw [mem_stepFn_zero]
        exact ⟨Or.inr rfl, by decide⟩
      · intro jj hjj
        rw [stepThreadFold_eval t 0 (by omega) h0 hjuniq, hasLabel_eq_false_iff]
        show xLabel jj ∉ stepFn 0 t.labels
        intro hm
        rcases (mem_stepFn_zero _ _).mp hm with ⟨hin | hin, _⟩
        · have h12 := hjuniq jj hjj ((hasLabel_iff _ _).mpr hin.1)
          exact hin.2 (by rw [h12])
        · exact (xLabel_ne_special jj hjj).1 hin
      · rw [stepThreadFold_eval t 0 (by omega) h0 hjuniq, hasLabel_eq_false_iff]
        show "INBOX" ∉ stepFn 0 t.labels
        intro hm
        exact ((mem_stepFn_zero _ _).mp hm).2 rfl

/-- C1 witness: a concrete two-thread store satisfying the hypotheses, with
the `i = 3` instance of the conservation conclusion. -/
theorem step_expiration_conservation_witness :
    ((([⟨1, ["INBOX", "x0"], []⟩, ⟨2, ["INBOX", "x3"], []⟩] : Mailbox).map MThread.id).Nodup
      ∧ (∀ t ∈ ([⟨1, ["INBOX", "x0"], []⟩, ⟨2, ["INBOX", "x3"], []⟩] : Mailbox),
          bucketCount t ≤ 1))
    ∧ (∀ tid : Nat,
        tid ∈ threadIdsWith [⟨1, ["INBOX", "x0"], []⟩, ⟨2, ["INBOX", "x3"], []⟩] (xLabel 3)
          ↔ tid ∈ threadIdsWith
              (step_expiration [⟨1, ["INBOX", "x0"], []⟩, ⟨2, ["INBOX", "x3"], []⟩])
              (xLabel 2)) :=
  ⟨⟨by decide, by decide⟩,
    (step_expiration_conservation _ (by decide) (by decide)).1 3 (by decide) (by decide)⟩

/-! ### Order dependence of the advance pass -/

theorem find?_eq_some_of_unique (p : Nat → Bool) (j : Nat) :
    ∀ L : List Nat, j ∈ L → p j = true → (∀ i ∈ L, p i = true → i = j) →
      L.find? p = some j := by
  intro L
  induction L with
  | nil => intro hj; cases hj
  | cons a L ih =>
    intro hj hpj huniq
    cases hpa : p a with
    | true =>
      have ha : a = j := huniq a (List.mem_cons_self a L) hpa
      subst ha
      simp [List.find?_cons, hpa]
    | false =>
      simp only [List.find?_cons, hpa]
      rcases List.mem_cons.mp hj with h | h
      · subst h
        rw [hpj] at hpa
        cases hpa
      · exact ih h hpj (fun i hi hpi => huniq i (List.mem_cons_of_mem a hi) hpi)

/-- C2 (amended): the advance pass is order dependent.  The pass as coded —
ascending bucket order 0..N with a live fetch per bucket — advances every
thread by exactly one step (it equals the per-thread map `advanceThread`);
the counterexample `step_expiration_order_dependent` shows that descending
order N..0 yields a different final state on the same invariant-satisfying
store, because a moved thread is re-fetched by the next bucket. -/
theorem step_expiration_asc_char (box : Mailbox)
    (hids : (box.map MThread.id).Nodup)
    (hinv : ∀ t ∈ box, bucketCount t ≤ 1) :
    step_expiration box = box.map advanceThread := by
  rw [step_expiration, step_order_char _ box hids]
  apply List.map_congr_left
  intro t htbox
  rcases bucket_cases t (hinv t htbox) with hnone | ⟨j, hj, hjhas, hjuniq⟩
  · rw [stepThreadFold_skip _ t (fun i hi => hnone i (List.mem_range.mp hi))]
    have hfind : (List.range (INBOX_DAYS + 1)).find?
        (fun i => t.labels.contains (xLabel i)) = none := by
      rw [List.find?_eq_none]
      intro i hi hc
      have hfalse := hnone i (List.mem_range.mp hi)
      rw [show t.labels.contains (xLabel i) = hasLabel t (xLabel i) from rfl, hfalse] at hc
      cases hc
    simp only [advanceThread, advanceLabels, hfind]
  · rw [stepThreadFold_eval t j hj hjhas hjuniq]
    have hfind : (List.range (INBOX_DAYS + 1)).find?
        (fun i => t.labels.contains (xLabel i)) = some j :=
      find?_eq_some_of_unique _ j _ (List.mem_range.mpr hj) hjhas
        (fun i hi hpi => hjuniq i (List.mem_range.mp hi) hpi)
    simp only [advanceThread, advanceLabels, hfind]

/-- C2 counterexample: a store satisfying the at-most-one-bucket invariant
on which descending bucket order N..0 and the code's ascending order 0..N
give different final label states (descending cascades the `x1` thread all
the way to `auto-archived`). -/
theorem step_expiration_order_dependent :
    (([⟨0, ["INBOX", "x1"], []⟩] : Mailbox).map MThread.id).Nodup
    ∧ (∀ t ∈ ([⟨0, ["INBOX", "x1"], []⟩] : Mailbox), bucketCount t ≤ 1)
    ∧ step_expiration_order [⟨0, ["INBOX", "x1"], []⟩] ((List.range (INBOX_DAYS + 1)).reverse)
        ≠ step_expiration_order [⟨0, ["INBOX", "x1"], []⟩] (List.range (INBOX_DAYS + 1)) := by
  refine ⟨by decide, by decide, by decide⟩

/-- C2 witness: the amended characterization applied to a concrete store. -/
theorem step_expiration_asc_char_witness :
    ((([⟨0, ["INBOX", "x2"], []⟩] : Mailbox).map MThread.id).Nodup
      ∧ (∀ t ∈ ([⟨0, ["INBOX", "x2"], []⟩] : Mailbox), bucketCount t ≤ 1))
    ∧ step_expiration [⟨0, ["INBOX", "x2"], []⟩]
        = ([⟨0, ["INBOX", "x2"], []⟩] : Mailbox).map advanceThread :=
  ⟨⟨by decide, by decide⟩, step_expiration_asc_char _ (by decide) (by decide)⟩

/-! ### Admission and cleanup passes -/

theorem length_filter_le_one (n j : Nat) (p : Nat → Bool)
    (h : ∀ i, i < n → p i = true → i = j) :
    ((List.range n).filter p).length ≤ 1 := by
  have hmemf : ∀ a : Nat, a ∈ (List.range n).filter p → a = j := by
    intro a ha
    rw [List.mem_filter, List.mem_range] at ha
    exact h a ha.1 ha.2
  cases hL : (List.range n).filter p with
  | nil => simp
  | cons a rest =>
    cases hrest : rest with
    | nil => simp
    | cons b l =>
      exfalso
      have hnd : ((List.range n).filter p).Nodup := (List.nodup_range n).filter p
      rw [hL, hrest, List.nodup_cons] at hnd
      have ha : a = j := hmemf a (by rw [hL]; exact List.mem_cons_self a rest)
      have hb : b = j := hmemf b (by rw [hL, hrest]; exact List.mem_cons_of_mem a (List.mem_cons_self b l))
      exact hnd.1 (by rw [ha, hb]; exact List.mem_cons_self j l)

theorem length_filter_mono {α : Type} (p q : α → Bool) :
    ∀ L : List α, (∀ a ∈ L, p a = true → q a = true) →
      (L.filter p).length ≤ (L.filter q).length := by
  intro L
  induction L with
  | nil => intro _; simp
  | cons a L ih =>
    intro h
    rw [List.filter_cons, List.filter_cons]
    have htail := ih (fun b hb => h b (List.mem_cons_of_mem a hb))
    by_cases hpa : p a = true
    · rw [if_pos hpa, if_pos (h a (List.mem_cons_self a L) hpa), List.length_cons,
        List.length_cons]
      exact Nat.succ_le_succ htail
    · rw [if_neg hpa]
      by_cases hqa : q a = true
      · rw [if_pos hqa, List.length_cons]
        omega
      · rw [if_neg hqa]
        exact htail

/-- A thread whose labels are a subset of another's carries no more
countdown labels. -/
theorem countdownCount_mono (u v : MThread) (h : ∀ l, l ∈ v.labels → l ∈ u.labels) :
    countdownCount v ≤ countdownCount u := by
  rw [countdownCount, countdownCount]
  apply Nat.add_le_add
  · apply length_filter_mono
    intro i _ hp
    rw [hasLabel_iff] at hp ⊢
    exact h _ hp
  · by_cases hv : hasLabel v "auto-archived" = true
    · rw [if_pos hv, if_pos ((hasLabel_iff _ _).mpr (h _ ((hasLabel_iff _ _).mp hv)))]
    · rw [if_neg hv]
      exact Nat.zero_le _

theorem matchesAdmission_no_bucket (t : MThread) (h : matchesAdmission t = true) :
    ∀ i, i < INBOX_DAYS + 1 → xLabel i ∉ t.labels := by
  intro i hi
  rw [matchesAdmission, Bool.and_eq_true, Bool.and_eq_true] at h
  have hall := h.2
  rw [List.all_eq_true] at hall
  have hfi := hall i (List.mem_range.mpr hi)
  simp only [Bool.not_eq_true'] at hfi
  rw [hasLabel_eq_false_iff] at hfi
  exact hfi

theorem matchesAdmission_inbox (t : MThread) (h : matchesAdmission t = true) :
    hasLabel t "INBOX" = true := by
  rw [matchesAdmission, Bool.and_eq_true, Bool.and_eq_true] at h
  exact h.1.1

/-- Fold form of `add_inbox_expiration` (definitional). -/
theorem add_inbox_foldl (box : Mailbox) :
    add_inbox_expiration box
      = (box.filter matchesAdmission).foldl
          (fun b t => applyTo b t.id (fun ls => applyLabels ls [] [xLabel INBOX_DAYS])) box :=
  rfl

/-- A filtered fold of a fixed keyed update is the pointwise conditional
update, in a store with unique ids. -/
theorem foldl_applyTo_filter_char (q : MThread → Bool) (f : List String → List String)
    (box : Mailbox) (hids : (box.map MThread.id).Nodup) :
    (box.filter q).foldl (fun b t => applyTo b t.id f) box
      = box.map (fun u => if q u then ⟨u.id, f u.labels, u.messages⟩ else u) := by
  rw [foldl_applyTo]
  apply List.map_congr_left
  intro u hu
  rw [List.filter_filter]
  have hcomm : box.filter (fun t => (t.id == u.id) && q t)
      = box.filter (fun t => q t && (t.id == u.id)) :=
    List.filter_congr (by intro x _; rw [Bool.and_comm])
  rw [hcomm, filter_id_pred q u box hids hu]
  by_cases hq : q u
  · rw [if_pos hq, if_pos hq]
    simp only [List.foldl_cons, List.foldl_nil]
  · rw [if_neg hq, if_neg hq]
    simp only [List.foldl_nil]

/-- `add_inbox_expiration` as a pointwise map, in a store with unique ids. -/
theorem add_inbox_char (box : Mailbox) (hids : (box.map MThread.id).Nodup) :
    add_inbox_expiration box
      = box.map (fun u =>
          if matchesAdmission u then
            ⟨u.id, applyLabels u.labels [] [xLabel INBOX_DAYS], u.messages⟩
          else u) := by
  rw [add_inbox_foldl]
  exact foldl_applyTo_filter_char matchesAdmission _ box hids

/-- Folding the `x7` addition over a nonempty snapshot leaves `x7` present. -/
theorem mem_fold_add (L : List MThread) :
    ∀ ls : List String, L ≠ [] →
      xLabel INBOX_DAYS
        ∈ L.foldl (fun ls _ => applyLabels ls [] [xLabel INBOX_DAYS]) ls := by
  induction L with
  | nil => intro ls h; exact absurd rfl h
  | cons t L ih =>
    intro ls _
    rw [List.foldl_cons]
    by_cases hL : L = []
    · subst hL
      rw [List.foldl_nil, mem_applyLabels]
      right
      exact List.mem_singleton.mpr rfl
    · exact ih _ hL

/-- C4: idempotency of admission.  For every label state, running
`add_inbox_expiration` twice produces the same state as running it once:
the second run's query (inbox, not starred, holding none of `x0..x7`)
matches no thread, because every thread the first run touched now carries
`x7` and every untouched thread failed the query already. -/
theorem add_inbox_expiration_idem (box : Mailbox) :
    add_inbox_expiration (add_inbox_expiration box) = add_inbox_expiration box := by
  have hnomatch : (add_inbox_expiration box).filter matchesAdmission = [] := by
    rw [List.filter_eq_nil_iff]
    intro u hu
    rw [add_inbox_foldl, foldl_applyTo] at hu
    rw [List.mem_map] at hu
    obtain ⟨t, htbox, hFt⟩ := hu
    intro hmatch
    rw [← hFt] at hmatch
    by_cases hMnil :
        (box.filter matchesAdmission).filter (fun s => s.id == t.id) = []
    · rw [hMnil, List.foldl_nil] at hmatch
      have htmatch : matchesAdmission t = true := hmatch
      have htM : t ∈ (box.filter matchesAdmission).filter (fun s => s.id == t.id) := by
        rw [List.mem_filter, List.mem_filter]
        exact ⟨⟨htbox, htmatch⟩, by simp⟩
      rw [hMnil] at htM
      cases htM
    · have hx7 : xLabel INBOX_DAYS
          ∈ ((box.filter matchesAdmission).filter (fun s => s.id == t.id)).foldl
              (fun ls _ => applyLabels ls [] [xLabel INBOX_DAYS]) t.labels :=
        mem_fold_add _ _ hMnil
      exact matchesAdmission_no_bucket _ hmatch INBOX_DAYS (by omega) hx7
  conv_lhs => rw [add_inbox_expiration, hnomatch]
  rfl

/-! ### Strip pass characterization -/

theorem stripBucket_char (box : Mailbox) (i : Nat) (hids : (box.map MThread.id).Nodup) :
    stripBucket box i = box.map (stripOne i) := by
  have h := foldl_applyTo_filter_char (fun t => !(hasLabel t "INBOX") && hasLabel t (xLabel i))
    (fun ls => applyLabels ls [xLabel i] []) box hids
  rw [show stripBucket box i
      = (box.filter (fun t => !(hasLabel t "INBOX") && hasLabel t (xLabel i))).foldl
          (fun b t => applyTo b t.id (fun ls => applyLabels ls [xLabel i] [])) box from rfl, h]
  apply List.map_congr_left
  intro u _
  rfl

theorem stripBucket_ids (box : Mailbox) (i : Nat) :
    (stripBucket box i).map MThread.id = box.map MThread.id := by
  rw [show stripBucket box i
      = (box.filter (fun t => !(hasLabel t "INBOX") && hasLabel t (xLabel i))).foldl
          (fun b t => applyTo b t.id (fun ls => applyLabels ls [xLabel i] [])) box from rfl]
  rw [foldl_applyTo, List.map_map]
  rfl

theorem strip_order_char (order : List Nat) :
    ∀ box : Mailbox, (box.map MThread.id).Nodup →
      order.foldl stripBucket box = box.map (stripThreadFold order) := by
  induction order with
  | nil =>
    intro box _
    simp only [List.foldl_nil, stripThreadFold]
    exact (List.map_id' box).symm
  | cons i order ih =>
    intro box hids
    have hids' : ((stripBucket box i).map MThread.id).Nodup := by
      rw [stripBucket_ids]
      exact hids
    rw [List.foldl_cons, ih _ hids', stripBucket_char box i hids, List.map_map]
    apply List.map_congr_left
    intro u _
    rfl

theorem stripOne_labels_subset (i : Nat) (v : MThread) :
    ∀ l, l ∈ (stripOne i v).labels → l ∈ v.labels := by
  intro l hl
  rw [stripOne] at hl
  split at hl
  · rcases mem_applyLabels.mp hl with ⟨h1, _⟩ | h1
    · exact h1
    · cases h1
  · exact hl

theorem stripThreadFold_labels_subset (order : List Nat) :
    ∀ v : MThread, ∀ l, l ∈ (stripThreadFold order v).labels → l ∈ v.labels := by
  induction order with
  | nil => intro v l hl; exact hl
  | cons i order ih =>
    intro v l hl
    have h1 : l ∈ (stripOne i v).labels := ih (stripOne i v) l hl
    exact stripOne_labels_subset i v l h1

/-- C3 (amended): invariant preservation.  From any unique-id state where
every thread holds at most one countdown label (bucket or `auto-archived`),
`step_expiration` and `strip_tags_on_archived_emails` preserve the full
invariant, and `add_inbox_expiration` preserves the at-most-one-bucket
part; the counterexample `admission_breaks_archived_exclusion` shows that
admission does not preserve the bucket/archived exclusion, because its
query does not exclude `auto-archived` threads that are back in the inbox. -/
theorem countdown_invariant_passes (box : Mailbox)
    (hids : (box.map MThread.id).Nodup)
    (hinv : ∀ t ∈ box, countdownCount t ≤ 1) :
    (∀ u ∈ add_inbox_expiration box, bucketCount u ≤ 1)
    ∧ (∀ u ∈ step_expiration box, countdownCount u ≤ 1)
    ∧ (∀ u ∈ strip_tags_on_archived_emails box, countdownCount u ≤ 1) := by
  refine ⟨?_, ?_, ?_⟩
  · rw [add_inbox_char box hids]
    intro u hu
    rw [List.mem_map] at hu
    obtain ⟨t, htbox, hFt⟩ := hu
    subst hFt
    by_cases hm : matchesAdmission t = true
    · rw [if_pos hm, bucketCount]
      apply length_filter_le_one _ INBOX_DAYS
      intro i hi hp
      rw [hasLabel_iff] at hp
      rcases mem_applyLabels.mp hp with ⟨hin, _⟩ | hin
      · exact absurd hin (matchesAdmission_no_bucket t hm i hi)
      · exact xLabel_injOn i hi INBOX_DAYS (by omega) (List.mem_singleton.mp hin)
    · rw [if_neg hm]
      exact le_trans (Nat.le_add_right _ _) (hinv t htbox)
  · rw [step_expiration, step_order_char _ box hids]
    intro u hu
    rw [List.mem_map] at hu
    obtain ⟨t, htbox, hFt⟩ := hu
    subst hFt
    have hbt : bucketCount t ≤ 1 := le_trans (Nat.le_add_right _ _) (hinv t htbox)
    rcases bucket_cases t hbt with hnone | ⟨j, hj, hjhas, hjuniq⟩
    · rw [stepThreadFold_skip _ t (fun i hi => hnone i (List.mem_range.mp hi))]
      exact hinv t htbox
    · rw [stepThreadFold_eval t j hj hjhas hjuniq]
      by_cases hj0 : j = 0
      · subst hj0
        rw [countdownCount]
        have hb0 : bucketCount ⟨t.id, stepFn 0 t.labels, t.messages⟩ = 0 := by
          rw [bucketCount, List.length_eq_zero, List.filter_eq_nil_iff]
          intro i hi hp
          rw [hasLabel_iff] at hp
          rcases (mem_stepFn_zero t.labels (xLabel i)).mp hp with ⟨hin | hin, _⟩
          · have h13 := hjuniq i (List.mem_range.mp hi) ((hasLabel_iff _ _).mpr hin.1)
            exact hin.2 (by rw [h13])
          · exact (xLabel_ne_special i (List.mem_range.mp hi)).1 hin
        rw [hb0]
        split <;> omega
      · rw [countdownCount]
        have hble : bucketCount ⟨t.id, stepFn j t.labels, t.messages⟩ ≤ 1 := by
          rw [bucketCount]
          apply length_filter_le_one _ (j - 1)
          intro i hi hp
          rw [hasLabel_iff] at hp
          rcases (mem_stepFn_pos j hj0 t.labels (xLabel i)).mp hp with hin | hin
          · exfalso
            have hij := hjuniq i hi ((hasLabel_iff _ _).mpr hin.1)
            exact hin.2 (by rw [hij])
          · exact xLabel_injOn i hi (j - 1) (by omega) hin
        have hauto : hasLabel ⟨t.id, stepFn j t.labels, t.messages⟩ "auto-archived" = false := by
          rw [hasLabel_eq_false_iff]
          intro hm
          rcases (mem_stepFn_pos j hj0 t.labels "auto-archived").mp hm with hin | hin
          · have h1 : 1 ≤ bucketCount t := by
              rw [bucketCount]
              have hjmem : j ∈ (List.range (INBOX_DAYS + 1)).filter
                  (fun i => hasLabel t (xLabel i)) := by
                rw [List.mem_filter, List.mem_range]
                exact ⟨hj, hjhas⟩
              exact List.length_pos.mpr (List.ne_nil_of_mem hjmem)
            have h2 := hinv t htbox
            rw [countdownCount, if_pos ((hasLabel_iff _ _).mpr hin.1)] at h2
            omega
          · exact (xLabel_ne_special (j - 1) (by omega)).1 hin.symm
        rw [hauto]
        simpa using hble
  · rw [strip_tags_on_archived_emails, strip_order_char _ box hids]
    intro u hu
    rw [List.mem_map] at hu
    obtain ⟨t, htbox, hFt⟩ := hu
    subst hFt
    exact le_trans (countdownCount_mono t _ (stripThreadFold_labels_subset _ t)) (hinv t htbox)

/-- C3 counterexample: an inbox, unstarred thread that holds only
`auto-archived` satisfies the at-most-one-countdown-label invariant, yet
`add_inbox_expiration` attaches `x7` to it, leaving a bucket label together
with `auto-archived`. -/
theorem admission_breaks_archived_exclusion :
    (∀ t ∈ ([⟨0, ["INBOX", "auto-archived"], []⟩] : Mailbox), countdownCount t ≤ 1)
    ∧ ∃ u ∈ add_inbox_expiration [⟨0, ["INBOX", "auto-archived"], []⟩],
        ¬ countdownCount u ≤ 1 := by
  refine ⟨by decide, by decide⟩

/-- C3 witness: the amended preservation statement applied to a concrete
state. -/
theorem countdown_invariant_passes_witness :
    ((([⟨0, ["INBOX"], []⟩, ⟨1, ["x4"], []⟩] : Mailbox).map MThread.id).Nodup
      ∧ (∀ t ∈ ([⟨0, ["INBOX"], []⟩, ⟨1, ["x4"], []⟩] : Mailbox), countdownCount t ≤ 1))
    ∧ ((∀ u ∈ add_inbox_expiration [⟨0, ["INBOX"], []⟩, ⟨1, ["x4"], []⟩], bucketCount u ≤ 1)
      ∧ (∀ u ∈ step_expiration [⟨0, ["INBOX"], []⟩, ⟨1, ["x4"], []⟩], countdownCount u ≤ 1)
      ∧ (∀ u ∈ strip_tags_on_archived_emails [⟨0, ["INBOX"], []⟩, ⟨1, ["x4"], []⟩],
          countdownCount u ≤ 1)) :=
  ⟨⟨by decide, by decide⟩, countdown_invariant_passes _ (by decide) (by decide)⟩

/-! ### Pagination -/

theorem fetchLoop_pagedStore (pages : List (List Nat)) :
    ∀ (n k : Nat) (acc : List Nat), (pages.drop k).length = n →
      fetchLoop (pagedStore pages) n acc (some k) = acc ++ (pages.drop k).join := by
  intro n
  induction n with
  | zero =>
    intro k acc h
    rw [List.length_eq_zero] at h
    rw [h]
    simp [fetchLoop]
  | succ m ih =>
    intro k acc h
    cases hdrop : pages.drop k with
    | nil => rw [hdrop] at h; cases h
    | cons p rest =>
      rw [hdrop] at h
      rw [List.length_cons] at h
      have hrest : rest.length = m := by omega
      by_cases hr : rest = []
      · subst hr
        have hstore : pagedStore pages (some k) = ⟨p, none⟩ := by
          rw [pagedStore]
          simp [hdrop]
        simp [fetchLoop, hstore, hdrop]
      · have hlen1 : ¬ ((pages.drop k).length ≤ 1) := by
          rw [hdrop, List.length_cons]
          have := List.length_pos.mpr hr
          omega
        have hstore : pagedStore pages (some k) = ⟨p, some (k + 1)⟩ := by
          simp [pagedStore, hdrop, hr]
        have hd1 : pages.drop (k + 1) = rest := by
          rw [← List.drop_drop 1 k pages, hdrop]
          rfl
        have hstep : fetchLoop (pagedStore pages) (m + 1) acc (some k)
            = fetchLoop (pagedStore pages) m (acc ++ p) (some (k + 1)) := by
          simp [fetchLoop, hstore]
        rw [hstep, ih (k + 1) (acc ++ p) (by rw [hd1]; exact hrest), hd1]
        simp [List.join_cons, List.append_assoc]

theorem fetchLoop_none_eq_zero (pages : List (List Nat)) (fuel : Nat) (acc : List Nat) :
    fetchLoop (pagedStore pages) fuel acc none
      = fetchLoop (pagedStore pages) fuel acc (some 0) := by
  cases fuel with
  | zero => rfl
  | succ m => rfl

/-- C7: pagination correctness.  For every paged result set,
`fetch_all_threads` returns exactly the concatenation of all pages in the
order received, following the continuation token until no page remains; so
nothing is duplicated or omitted relative to the remote result set, for any
page division. -/
theorem fetch_all_threads_join (pages : List (List Nat)) :
    fetch_all_threads pages = pages.join
    ∧ (pages.join.Nodup → (fetch_all_threads pages).Nodup) := by
  have hmain : fetch_all_threads pages = pages.join := by
    rw [fetch_all_threads, fetchLoop_none_eq_zero]
    have h := fetchLoop_pagedStore pages pages.length 0 [] (by rw [List.drop_zero])
    rw [h]
    simp [List.drop_zero]
  exact ⟨hmain, fun h => hmain ▸ h⟩

/-! ### Non-atomic archival -/

/-- C9: the bucket-0 transition is two separate remote mutations.  The
`i = 0` branch of `step_expiration` first removes `x0` and adds
`auto-archived`, then in a second `modify` call removes `INBOX`; after the
first call alone, the thread carries `auto-archived` while still being in
the inbox view (no rollback exists — the second call is the only further
mutation). -/
theorem step_archival_two_calls (box : Mailbox) (t : MThread)
    (ht : t ∈ box) (h0 : hasLabel t (xLabel 0) = true) (hin : hasLabel t "INBOX" = true) :
    stepBucket box 0
      = (box.filter (fun s => hasLabel s (xLabel 0))).foldl
          (fun b s =>
            modifyThread (modifyThread b s.id [xLabel 0] ["auto-archived"]) s.id ["INBOX"] [])
          box
    ∧ ∃ u ∈ modifyThread box t.id [xLabel 0] ["auto-archived"],
        u.id = t.id ∧ hasLabel u "auto-archived" = true ∧ hasLabel u "INBOX" = true
          ∧ hasLabel u (xLabel 0) = false := by
  refine ⟨rfl,
    ⟨⟨t.id, applyLabels t.labels [xLabel 0] ["auto-archived"], t.messages⟩, ?_, rfl, ?_, ?_, ?_⟩⟩
  · rw [modifyThread, applyTo]
    have heq : (fun s : MThread =>
        if s.id = t.id then
          (⟨s.id, applyLabels s.labels [xLabel 0] ["auto-archived"], s.messages⟩ : MThread)
        else s) t
        = ⟨t.id, applyLabels t.labels [xLabel 0] ["auto-archived"], t.messages⟩ := by
      simp
    rw [← heq]
    exact List.mem_map_of_mem _ ht
  · rw [hasLabel_iff]
    show "auto-archived" ∈ applyLabels t.labels [xLabel 0] ["auto-archived"]
    rw [mem_applyLabels]
    right
    exact List.mem_singleton.mpr rfl
  · rw [hasLabel_iff]
    show "INBOX" ∈ applyLabels t.labels [xLabel 0] ["auto-archived"]
    rw [mem_applyLabels]
    left
    exact ⟨(hasLabel_iff t _).mp hin, by decide⟩
  · rw [hasLabel_eq_false_iff]
    show xLabel 0 ∉ applyLabels t.labels [xLabel 0] ["auto-archived"]
    intro hm
    rcases mem_applyLabels.mp hm with ⟨_, h2⟩ | h2
    · exact h2 (List.mem_singleton.mpr rfl)
    · exact absurd (List.mem_singleton.mp h2) (by decide)

/-- C9 witness: the decomposition and intermediate state on a concrete
thread. -/
theorem step_archival_two_calls_witness :
    (((⟨5, ["INBOX", "x0"], []⟩ : MThread) ∈ ([⟨5, ["INBOX", "x0"], []⟩] : Mailbox))
      ∧ hasLabel ⟨5, ["INBOX", "x0"], []⟩ (xLabel 0) = true
      ∧ hasLabel ⟨5, ["INBOX", "x0"], []⟩ "INBOX" = true)
    ∧ ∃ u ∈ modifyThread [⟨5, ["INBOX", "x0"], []⟩] 5 [xLabel 0] ["auto-archived"],
        u.id = 5 ∧ hasLabel u "auto-archived" = true ∧ hasLabel u "INBOX" = true
          ∧ hasLabel u (xLabel 0) = false :=
  ⟨⟨by decide, by decide, by decide⟩,
    (step_archival_two_calls [⟨5, ["INBOX", "x0"], []⟩] ⟨5, ["INBOX", "x0"], []⟩
      (by decide) (by decide) (by decide)).2⟩

/-! ### Age classification arithmetic -/

/-- Division of an integer by a positive odd integer never lands exactly
halfway between two integers. -/
theorem fract_div_odd_ne_half (a d : ℤ) (hodd : Odd d) (hpos : 0 < d) :
    Int.fract ((a : ℚ) / (d : ℚ)) ≠ 1 / 2 := by
  intro h
  have hd0 : (d : ℚ) ≠ 0 := Int.cast_ne_zero.mpr (by omega)
  have hx : (a : ℚ) / d = ⌊(a : ℚ) / d⌋ + 1 / 2 := by
    conv_lhs => rw [← Int.floor_add_fract ((a : ℚ) / d)]
    rw [h]
  have h2 : (a : ℚ) * 2 = ((⌊(a : ℚ) / d⌋ : ℚ) * 2 + 1) * d := by
    field_simp at hx
    linarith
  have h3 : a * 2 = (⌊(a : ℚ) / d⌋ * 2 + 1) * d := by exact_mod_cast h2
  have hodd2 : Odd ((⌊(a : ℚ) / d⌋ * 2 + 1) * d) :=
    Odd.mul ⟨⌊(a : ℚ) / d⌋, by ring⟩ hodd
  rw [← h3] at hodd2
  exact (Int.even_iff_not_odd.mp ⟨a, by ring⟩) hodd2

theorem pyRound_eq_round (q : ℚ) (h : Int.fract q ≠ 1 / 2) : pyRound q = round q := by
  rw [pyRound, if_neg h]

theorem abs_sub_round_lt_half (q : ℚ) (h : Int.fract q ≠ 1 / 2) :
    |q - (round q : ℚ)| < 1 / 2 := by
  rw [abs_sub_round_eq_min]
  rcases lt_or_gt_of_ne h with hlt | hgt
  · exact lt_of_le_of_lt (min_le_left _ _) hlt
  · have h1 : 1 - Int.fract q < 1 / 2 := by linarith
    exact lt_of_le_of_lt (min_le_right _ _) h1

/-- C10: rounding ties are impossible in age classification.  For every
integer age, `age / 31` and `age / 365` have fractional part different from
one half (31 and 365 are odd), so CPython's half-to-even `round` used by
`add_age_label` agrees with round-half-up, picks the unique nearest
integer, and the produced label string is rounding-rule independent. -/
theorem age_round_no_ties (age : ℤ) :
    Int.fract ((age : ℚ) / 31) ≠ 1 / 2
    ∧ Int.fract ((age : ℚ) / 365) ≠ 1 / 2
    ∧ pyRound ((age : ℚ) / 31) = round ((age : ℚ) / 31)
    ∧ pyRound ((age : ℚ) / 365) = round ((age : ℚ) / 365)
    ∧ |(age : ℚ) / 31 - (pyRound ((age : ℚ) / 31) : ℚ)| < 1 / 2
    ∧ |(age : ℚ) / 365 - (pyRound ((age : ℚ) / 365) : ℚ)| < 1 / 2
    ∧ age_string age = age_string_halfup age := by
  have hc31 : ((31 : ℤ) : ℚ) = (31 : ℚ) := by norm_num
  have hc365 : ((365 : ℤ) : ℚ) = (365 : ℚ) := by norm_num
  have h31 : Int.fract ((age : ℚ) / 31) ≠ 1 / 2 := by
    have h := fract_div_odd_ne_half age 31 ⟨15, by norm_num⟩ (by norm_num)
    rwa [hc31] at h
  have h365 : Int.fract ((age : ℚ) / 365) ≠ 1 / 2 := by
    have h := fract_div_odd_ne_half age 365 ⟨182, by norm_num⟩ (by norm_num)
    rwa [hc365] at h
  have hr31 := pyRound_eq_round _ h31
  have hr365 := pyRound_eq_round _ h365
  refine ⟨h31, h365, hr31, hr365, ?_, ?_, ?_⟩
  · rw [hr31]
    exact abs_sub_round_lt_half _ h31
  · rw [hr365]
    exact abs_sub_round_lt_half _ h365
  · rw [age_string, age_string_halfup]
    by_cases h1 : age < 31
    · rw [if_pos h1, if_pos h1]
    · by_cases h2 : age < 365
      · rw [if_neg h1, if_neg h1, if_pos h2, if_pos h2, hr31]
      · rw [if_neg h1, if_neg h1, if_neg h2, if_neg h2, hr365]

theorem age_string_31 : age_string 31 = "1m" := by
  have f : Int.fract (((31 : ℤ) : ℚ) / 31) ≠ 1 / 2 := by
    rw [show (((31 : ℤ) : ℚ)) = (31 : ℚ) by norm_num, Int.fract,
      show ⌊(31 : ℚ) / 31⌋ = 1 by norm_num]
    norm_num
  rw [age_string, if_neg (by norm_num), if_pos (by norm_num), pyRound, if_neg f, round_eq,
    show (((31 : ℤ) : ℚ)) = (31 : ℚ) by norm_num,
    show ⌊(31 : ℚ) / 31 + 1 / 2⌋ = 1 by rw [show (31 : ℚ) / 31 + 1 / 2 = 3 / 2 by norm_num]; rw [Int.floor_eq_iff] <;> norm_num]
  decide

theorem age_string_364 : age_string 364 = "12m" := by
  have f : Int.fract (((364 : ℤ) : ℚ) / 31) ≠ 1 / 2 := by
    rw [show (((364 : ℤ) : ℚ)) = (364 : ℚ) by norm_num, Int.fract,
      show ⌊(364 : ℚ) / 31⌋ = 11 by norm_num]
    norm_num
  rw [age_string, if_neg (by norm_num), if_pos (by norm_num), pyRound, if_neg f, round_eq,
    show (((364 : ℤ) : ℚ)) = (364 : ℚ) by norm_num,
    show ⌊(364 : ℚ) / 31 + 1 / 2⌋ = 12 by rw [show (364 : ℚ) / 31 + 1 / 2 = 759 / 62 by norm_num]; rw [Int.floor_eq_iff] <;> norm_num]
  decide

theorem age_string_365 : age_string 365 = "1y" := by
  have f : Int.fract (((365 : ℤ) : ℚ) / 365) ≠ 1 / 2 := by
    rw [show (((365 : ℤ) : ℚ)) = (365 : ℚ) by norm_num, Int.fract,
      show ⌊(365 : ℚ) / 365⌋ = 1 by norm_num]
    norm_num
  rw [age_string, if_neg (by norm_num), if_neg (by norm_num), pyRound, if_neg f, round_eq,
    show (((365 : ℤ) : ℚ)) = (365 : ℚ) by norm_num,
    show ⌊(365 : ℚ) / 365 + 1 / 2⌋ = 1 by rw [show (365 : ℚ) / 365 + 1 / 2 = 3 / 2 by norm_num]; rw [Int.floor_eq_iff] <;> norm_num]
  decide

/-- C5: age classification boundaries.  `age_days = 20` gets no label
(below the threshold 21); 21 → `21d`; 30 → `30d`; 31 → `1m`; 364 → `12m`;
365 → `1y`, with months as `round(age/31)` and years as `round(age/365)`. -/
theorem age_classification_boundaries :
    annotate_label 20 = none
    ∧ annotate_label 21 = some "⌛/21d"
    ∧ annotate_label 30 = some "⌛/30d"
    ∧ annotate_label 31 = some "⌛/1m"
    ∧ annotate_label 364 = some "⌛/12m"
    ∧ annotate_label 365 = some "⌛/1y"
    ∧ age_string 21 = "21d" ∧ age_string 30 = "30d" ∧ age_string 31 = "1m"
    ∧ age_string 364 = "12m" ∧ age_string 365 = "1y" := by
  refine ⟨by decide, by decide, by decide, ?_, ?_, ?_, by decide, by decide,
    age_string_31, age_string_364, age_string_365⟩
  · rw [annotate_label, if_pos (by decide), age_string_31]
    decide
  · rw [annotate_label, if_pos (by decide), age_string_364]
    decide
  · rw [annotate_label, if_pos (by decide), age_string_365]
    decide

/-! ### The age-label sweep and attach phase -/

theorem foldl_delete (D : List String) :
    ∀ s : MailState,
      D.foldl delete_label s
        = ⟨s.labels.filter (fun n => !(D.contains n)),
           s.threads.map (fun t =>
             ⟨t.id, t.labels.filter (fun n => !(D.contains n)), t.messages⟩)⟩ := by
  induction D with
  | nil =>
    intro s
    rw [List.foldl_nil]
    have hpred : (fun n : String => !(([] : List String).contains n)) = fun _ => true := by
      funext n
      rfl
    rw [hpred, List.filter_true]
    have hmap : (fun t : MThread => (⟨t.id, t.labels.filter (fun _ => true), t.messages⟩ : MThread))
        = fun t => t := by
      funext t
      rw [List.filter_true]
    rw [hmap, List.map_id']
  | cons d D ih =>
    intro s
    rw [List.foldl_cons, ih, delete_label]
    have hpred : ∀ n : String, ((fun n => !(D.contains n)) n && (fun n => !(n == d)) n)
        = !((d :: D).contains n) := by
      intro n
      by_cases hnd : n = d
      · simp [List.contains_cons, hnd]
      · simp [List.contains_cons, hnd, Bool.not_or, Bool.and_comm]
    congr 1
    · rw [List.filter_filter]
      exact List.filter_congr (fun n _ => hpred n)
    · rw [List.map_map]
      apply List.map_congr_left
      intro t _
      simp only [Function.comp]
      congr 1
      rw [List.filter_filter]
      exact List.filter_congr (fun n _ => hpred n)

theorem contains_eq_decide_mem (L : List String) (l : String) :
    L.contains l = decide (l ∈ L) := by
  simp [List.elem_eq_mem]

theorem sweep_registry_no_match (s : MailState) :
    ∀ n ∈ (remove_all_age_labels s).labels, age_label_matches n = false := by
  rw [remove_all_age_labels, foldl_delete]
  intro n hn
  rw [List.mem_filter] at hn
  rcases hn with ⟨hns, hnp⟩
  rw [Bool.not_eq_true', contains_eq_decide_mem, decide_eq_false_iff_not] at hnp
  rw [Bool.eq_false_iff]
  intro hm
  exact hnp (List.mem_filter.mpr ⟨hns, hm⟩)

theorem sweep_thread_labels (s : MailState) :
    (remove_all_age_labels s).threads
      = s.threads.map (fun t =>
          ⟨t.id,
            t.labels.filter (fun n => !((s.labels.filter age_label_matches).contains n)),
            t.messages⟩) := by
  rw [remove_all_age_labels, foldl_delete]

/-- A non-matching label survives the sweep's per-thread filter. -/
theorem sweep_keeps_nonmatching (s : MailState) (l : String)
    (hl : age_label_matches l = false) (ls : List String) :
    l ∈ ls.filter (fun n => !((s.labels.filter age_label_matches).contains n)) ↔ l ∈ ls := by
  rw [List.mem_filter]
  constructor
  · exact fun h => h.1
  · intro h
    refine ⟨h, ?_⟩
    rw [Bool.not_eq_true', contains_eq_decide_mem, decide_eq_false_iff_not]
    intro hmem
    rw [List.mem_filter] at hmem
    rw [hmem.2] at hl
    cases hl

theorem get_or_create_label_threads (s : MailState) (nm : String) :
    (get_or_create_label s nm).threads = s.threads := by
  rw [get_or_create_label]
  split <;> rfl

theorem attach_foldl_threads (L : List MThread) :
    ∀ st : MailState,
      (L.foldl attachStep st).threads
        = L.foldl (fun ths t =>
            match processThread t with
            | none => ths
            | some nm => modifyThread ths t.id [] [nm]) st.threads := by
  induction L with
  | nil => intro st; rfl
  | cons t L ih =>
    intro st
    rw [List.foldl_cons, List.foldl_cons, ih]
    congr 1
    rw [attachStep, processThread]
    cases hml : t.messages.getLast? with
    | none => rfl
    | some age =>
      by_cases hage : MIN_AGE_TO_APPEND_LABEL ≤ age
      · simp [hage, add_age_label, get_or_create_label_threads]
      · simp [hage]

theorem attach_foldl_labels (L : List MThread) :
    ∀ st : MailState,
      (L.foldl attachStep st).labels
        = L.foldl (fun ls t =>
            match processThread t with
            | none => ls
            | some nm => if ls.contains nm then ls else ls ++ [nm]) st.labels := by
  induction L with
  | nil => intro st; rfl
  | cons t L ih =>
    intro st
    rw [List.foldl_cons, List.foldl_cons, ih]
    congr 1
    rw [attachStep, processThread]
    cases hml : t.messages.getLast? with
    | none => rfl
    | some age =>
      by_cases hage : MIN_AGE_TO_APPEND_LABEL ≤ age
      · simp [hage, add_age_label, get_or_create_label]
        split <;> rfl
      · simp [hage]

theorem attach_threads_applyTo (L : List MThread) :
    ∀ ths : Mailbox,
      L.foldl (fun ths t =>
        match processThread t with
        | none => ths
        | some nm => modifyThread ths t.id [] [nm]) ths
      = L.foldl (fun ths t => applyTo ths t.id (attachFn t)) ths := by
  induction L with
  | nil => intro ths; rfl
  | cons t L ih =>
    intro ths
    rw [List.foldl_cons, List.foldl_cons, ih]
    congr 1
    cases hp : processThread t with
    | none =>
      have hfn : attachFn t = fun ls => ls := by
        funext ls
        rw [attachFn, hp]
      rw [hfn]
      exact (applyTo_id ths t.id).symm
    | some nm =>
      have hfn : attachFn t = fun ls => applyLabels ls [] [nm] := by
        funext ls
        rw [attachFn, hp]
      rw [hfn]
      rfl

theorem processThread_some (t : MThread) (nm : String) (h : processThread t = some nm) :
    ∃ age, t.messages.getLast? = some age ∧ MIN_AGE_TO_APPEND_LABEL ≤ age
      ∧ nm = LABEL_NS ++ age_string age := by
  rw [processThread] at h
  cases hml : t.messages.getLast? with
  | none => rw [hml] at h; cases h
  | some age =>
    rw [hml] at h
    by_cases hage : MIN_AGE_TO_APPEND_LABEL ≤ age
    · simp only [hage, if_true] at h
      injection h with h
      exact ⟨age, rfl, hage, h.symm⟩
    · simp only [hage, if_false] at h
      cases h

theorem ns_append_ne (str other : String) (hother : other.data.head? ≠ some '⌛') :
    LABEL_NS ++ str ≠ other := by
  intro h
  apply hother
  rw [← h, String.data_append, show LABEL_NS.data = ['⌛', '/'] from by decide]
  rfl

theorem xLabel_head (i : Nat) : (xLabel i).data.head? = some 'x' := by
  rw [xLabel, String.data_append, show ("x" : String).data = ['x'] from by decide]
  rfl

theorem attach_innerfold_mem (l : String) (hlne : ∀ str : String, LABEL_NS ++ str ≠ l) :
    ∀ (M : List MThread) (ls : List String),
      l ∈ M.foldl (fun ls t => attachFn t ls) ls ↔ l ∈ ls := by
  intro M
  induction M with
  | nil => intro ls; exact Iff.rfl
  | cons t M ih =>
    intro ls
    rw [List.foldl_cons, ih]
    cases hp : processThread t with
    | none => simp [attachFn, hp]
    | some nm =>
      obtain ⟨age, _, _, hnm⟩ := processThread_some t nm hp
      simp only [attachFn, hp]
      rw [mem_applyLabels]
      constructor
      · rintro (⟨h1, _⟩ | h1)
        · exact h1
        · exact absurd ((List.mem_singleton.mp h1).trans hnm).symm (hlne _)
      · intro h1
        exact Or.inl ⟨h1, List.not_mem_nil l⟩

theorem append_eq (s : MailState) :
    append_too_old_labels s
      = ((remove_all_age_labels s).threads.filter (fun t => hasLabel t "INBOX")).foldl
          attachStep (remove_all_age_labels s) := rfl

theorem append_threads_char (s : MailState) :
    (append_too_old_labels s).threads
      = (remove_all_age_labels s).threads.map (fun u =>
          ⟨u.id,
            ((((remove_all_age_labels s).threads.filter (fun t => hasLabel t "INBOX")).filter
                (fun t => t.id == u.id)).foldl (fun ls t => attachFn t ls) u.labels),
            u.messages⟩) := by
  rw [append_eq, attach_foldl_threads, attach_threads_applyTo, foldl_applyTo]

theorem append_labels_char (s : MailState) :
    (append_too_old_labels s).labels
      = ((remove_all_age_labels s).threads.filter (fun t => hasLabel t "INBOX")).foldl
          (fun ls t =>
            match processThread t with
            | none => ls
            | some nm => if ls.contains nm then ls else ls ++ [nm])
          (remove_all_age_labels s).labels := by
  rw [append_eq, attach_foldl_labels]

theorem regfold_mem_mono (l : String) :
    ∀ (L : List MThread) (ls : List String), l ∈ ls →
      l ∈ L.foldl (fun ls t =>
        match processThread t with
        | none => ls
        | some nm => if ls.contains nm then ls else ls ++ [nm]) ls := by
  intro L
  induction L with
  | nil => intro ls h; exact h
  | cons t L ih =>
    intro ls h
    rw [List.foldl_cons]
    apply ih
    cases hp : processThread t with
    | none => exact h
    | some nm =>
      show l ∈ if ls.contains nm then ls else ls ++ [nm]
      split
      · exact h
      · exact List.mem_append_left _ h

theorem regfold_mem_inv (nm : String) :
    ∀ (L : List MThread) (ls : List String),
      nm ∈ L.foldl (fun ls t =>
        match processThread t with
        | none => ls
        | some nm2 => if ls.contains nm2 then ls else ls ++ [nm2]) ls →
      nm ∈ ls ∨ ∃ t ∈ L, processThread t = some nm := by
  intro L
  induction L with
  | nil => intro ls h; exact Or.inl h
  | cons t L ih =>
    intro ls h
    rw [List.foldl_cons] at h
    have hstep : ∀ ls2 : List String,
        nm ∈ (match processThread t with
          | none => ls2
          | some nm2 => if ls2.contains nm2 then ls2 else ls2 ++ [nm2]) →
        nm ∈ ls2 ∨ processThread t = some nm := by
      intro ls2 hmem
      cases hp : processThread t with
      | none =>
        rw [hp] at hmem
        exact Or.inl hmem
      | some nm2 =>
        rw [hp] at hmem
        have hmem2 : nm ∈ (if ls2.contains nm2 then ls2 else ls2 ++ [nm2]) := hmem
        by_cases hc : ls2.contains nm2
        · rw [if_pos hc] at hmem2
          exact Or.inl hmem2
        · rw [if_neg hc] at hmem2
          rcases List.mem_append.mp hmem2 with h2 | h2
          · exact Or.inl h2
          · right
            rw [List.mem_singleton.mp h2]
    rcases ih _ h with h1 | ⟨t2, ht2, hp2⟩
    · rcases hstep ls h1 with h2 | h2
      · exact Or.inl h2
      · exact Or.inr ⟨t, List.mem_cons_self t L, h2⟩
    · exact Or.inr ⟨t2, List.mem_cons_of_mem t ht2, hp2⟩

theorem sweep_registry_keeps (s : MailState) (l : String)
    (hl : age_label_matches l = false) :
    l ∈ (remove_all_age_labels s).labels ↔ l ∈ s.labels := by
  rw [remove_all_age_labels, foldl_delete]
  exact sweep_keeps_nonmatching s l hl s.labels

/-- C8: the age-label sweep never touches countdown state.  No countdown
label name `x0 .. x7` nor `auto-archived` matches the sweep pattern
`^⌛[ /]\d+`, the whole `append_too_old_labels` pass keeps every such
registry label, and every thread's countdown and archived label membership
is unchanged by the pass. -/
theorem age_sweep_frame (s : MailState) :
    (∀ i < INBOX_DAYS + 1, age_label_matches (xLabel i) = false)
    ∧ age_label_matches "auto-archived" = false
    ∧ (∀ i < INBOX_DAYS + 1,
        xLabel i ∈ s.labels → xLabel i ∈ (append_too_old_labels s).labels)
    ∧ ("auto-archived" ∈ s.labels → "auto-archived" ∈ (append_too_old_labels s).labels)
    ∧ List.Forall₂ (fun t u => u.id = t.id
        ∧ (∀ i < INBOX_DAYS + 1, (xLabel i ∈ u.labels ↔ xLabel i ∈ t.labels))
        ∧ ("auto-archived" ∈ u.labels ↔ "auto-archived" ∈ t.labels))
        s.threads (append_too_old_labels s).threads := by
  have hxm : ∀ i < INBOX_DAYS + 1, age_label_matches (xLabel i) = false := by decide
  have ham : age_label_matches "auto-archived" = false := by decide
  have hreg : ∀ l : String, age_label_matches l = false → l ∈ s.labels →
      l ∈ (append_too_old_labels s).labels := by
    intro l hl hmem
    rw [append_labels_char]
    apply regfold_mem_mono
    exact (sweep_registry_keeps s l hl).mpr hmem
  refine ⟨hxm, ham, fun i hi => hreg _ (hxm i hi), hreg _ ham, ?_⟩
  rw [append_threads_char, sweep_thread_labels, List.map_map]
  rw [List.forall₂_map_right_iff, List.forall₂_same]
  intro t ht
  simp only [Function.comp]
  refine ⟨by trivial, ?_, ?_⟩
  · intro i hi
    have hlne : ∀ str : String, LABEL_NS ++ str ≠ xLabel i := by
      intro str
      apply ns_append_ne
      rw [xLabel_head]
      decide
    rw [attach_innerfold_mem _ hlne]
    exact sweep_keeps_nonmatching s _ (hxm i hi) t.labels
  · have hlne : ∀ str : String, LABEL_NS ++ str ≠ "auto-archived" := by
      intro str
      apply ns_append_ne
      decide
    rw [attach_innerfold_mem _ hlne]
    exact sweep_keeps_nonmatching s _ ham t.labels

/-! ### Stale-label sweep completeness -/

theorem count_applyLabels_add (ls ad : List String)
    (h : ∀ l ∈ ls, age_label_matches l = false) (had : ad.length ≤ 1) :
    ((applyLabels ls [] ad).filter age_label_matches).length ≤ 1 := by
  simp only [applyLabels]
  rw [List.filter_append, List.length_append]
  have h1 : ((ls.filter (fun l => !(([] : List String).contains l))).filter
      age_label_matches).length = 0 := by
    rw [List.length_eq_zero, List.filter_eq_nil_iff]
    intro a ha ham
    rw [List.mem_filter] at ha
    rw [h a ha.1] at ham
    cases ham
  rw [h1]
  have h2 := List.length_filter_le age_label_matches
    (ad.filter (fun l => !((ls.filter (fun l => !(([] : List String).contains l))).contains l)))
  have h3 := List.length_filter_le
    (fun l => !((ls.filter (fun l => !(([] : List String).contains l))).contains l)) ad
  omega

theorem sweep_threads_clean (s : MailState)
    (hwf : ∀ t ∈ s.threads, ∀ l ∈ t.labels, l ∈ s.labels) :
    ∀ u ∈ (remove_all_age_labels s).threads, ∀ l ∈ u.labels,
      age_label_matches l = false := by
  rw [sweep_thread_labels]
  intro u hu l hl
  rw [List.mem_map] at hu
  obtain ⟨t, ht, hut⟩ := hu
  rw [← hut] at hl
  have hl2 : l ∈ t.labels.filter
      (fun n => !((s.labels.filter age_label_matches).contains n)) := hl
  rw [List.mem_filter] at hl2
  rcases hl2 with ⟨hlt, hlp⟩
  rw [Bool.not_eq_true', contains_eq_decide_mem, decide_eq_false_iff_not] at hlp
  rw [Bool.eq_false_iff]
  intro hm
  exact hlp (List.mem_filter.mpr ⟨hwf t ht l hlt, hm⟩)

theorem sweep_threads_ids (s : MailState) :
    ((remove_all_age_labels s).threads.map MThread.id) = s.threads.map MThread.id := by
  rw [sweep_thread_labels, List.map_map]
  rfl

/-- C6: stale-label sweep completeness.  After one `append_too_old_labels`
run on a well-formed unique-id state (thread labels drawn from the
registry), every thread holds at most one label matching the age pattern,
and every matching registry label was attached to some currently-inbox
thread whose last message's whole-day age produced exactly that label. -/
theorem append_too_old_labels_sweep (s : MailState)
    (hids : (s.threads.map MThread.id).Nodup)
    (hwf : ∀ t ∈ s.threads, ∀ l ∈ t.labels, l ∈ s.labels) :
    (∀ u ∈ (append_too_old_labels s).threads,
        (u.labels.filter age_label_matches).length ≤ 1)
    ∧ (∀ nm ∈ (append_too_old_labels s).labels, age_label_matches nm = true →
        ∃ u ∈ (append_too_old_labels s).threads,
          nm ∈ u.labels ∧ hasLabel u "INBOX" = true
          ∧ ∃ age, u.messages.getLast? = some age ∧ MIN_AGE_TO_APPEND_LABEL ≤ age
              ∧ nm = LABEL_NS ++ age_string age) := by
  have hids' : ((remove_all_age_labels s).threads.map MThread.id).Nodup := by
    rw [sweep_threads_ids]
    exact hids
  have hclean := sweep_threads_clean s hwf
  have hMu : ∀ u ∈ (remove_all_age_labels s).threads,
      (((remove_all_age_labels s).threads.filter (fun t => hasLabel t "INBOX")).filter
        (fun t => t.id == u.id))
      = if hasLabel u "INBOX" then [u] else [] := by
    intro u hu
    rw [List.filter_filter]
    have hcomm : (remove_all_age_labels s).threads.filter
          (fun t => (t.id == u.id) && hasLabel t "INBOX")
        = (remove_all_age_labels s).threads.filter
          (fun t => hasLabel t "INBOX" && (t.id == u.id)) :=
      List.filter_congr (fun x _ => by rw [Bool.and_comm])
    rw [hcomm, filter_id_pred _ u _ hids' hu]
  constructor
  · intro u' hu'
    rw [append_threads_char, List.mem_map] at hu'
    obtain ⟨u, hu, huu⟩ := hu'
    rw [← huu]
    show ((((((remove_all_age_labels s).threads.filter (fun t => hasLabel t "INBOX")).filter
        (fun t => t.id == u.id)).foldl (fun ls t => attachFn t ls) u.labels)).filter
          age_label_matches).length ≤ 1
    rw [hMu u hu]
    by_cases hin : hasLabel u "INBOX" = true
    · rw [if_pos hin, List.foldl_cons, List.foldl_nil, attachFn]
      cases hp : processThread u with
      | none =>
        show (u.labels.filter age_label_matches).length ≤ 1
        have h0 : (u.labels.filter age_label_matches).length = 0 := by
          rw [List.length_eq_zero, List.filter_eq_nil_iff]
          intro a ha ham
          rw [hclean u hu a ha] at ham
          cases ham
        omega
      | some nm =>
        show ((applyLabels u.labels [] [nm]).filter age_label_matches).length ≤ 1
        exact count_applyLabels_add u.labels [nm] (hclean u hu) (by simp)
    · rw [if_neg hin, List.foldl_nil]
      have h0 : (u.labels.filter age_label_matches).length = 0 := by
        rw [List.length_eq_zero, List.filter_eq_nil_iff]
        intro a ha ham
        rw [hclean u hu a ha] at ham
        cases ham
      omega
  · intro nm hnm hmatch
    rw [append_labels_char] at hnm
    rcases regfold_mem_inv nm _ _ hnm with h1 | ⟨t, htL, hpt⟩
    · exfalso
      rw [sweep_registry_no_match s nm h1] at hmatch
      cases hmatch
    · obtain ⟨age, hlast, hage, hnmage⟩ := processThread_some t nm hpt
      have ht2 := List.mem_filter.mp htL
      rcases ht2 with ⟨htSwept, htInbox⟩
      rw [append_threads_char]
      refine ⟨_, List.mem_map_of_mem _ htSwept, ?_, ?_, age, ?_, hage, hnmage⟩
      · show nm ∈ ((((remove_all_age_labels s).threads.filter
            (fun t2 => hasLabel t2 "INBOX")).filter (fun t2 => t2.id == t.id)).foldl
              (fun ls t2 => attachFn t2 ls) t.labels)
        rw [hMu t htSwept, if_pos htInbox, List.foldl_cons, List.foldl_nil]
        have hfn : attachFn t t.labels = applyLabels t.labels [] [nm] := by
          rw [attachFn, hpt]
        rw [hfn, mem_applyLabels]
        right
        exact List.mem_singleton.mpr rfl
      · show hasLabel (⟨t.id, _, t.messages⟩ : MThread) "INBOX" = true
        rw [hasLabel_iff]
        show "INBOX" ∈ ((((remove_all_age_labels s).threads.filter
            (fun t2 => hasLabel t2 "INBOX")).filter (fun t2 => t2.id == t.id)).foldl
              (fun ls t2 => attachFn t2 ls) t.labels)
        rw [hMu t htSwept, if_pos htInbox, List.foldl_cons, List.foldl_nil]
        have hfn : attachFn t t.labels = applyLabels t.labels [] [nm] := by
          rw [attachFn, hpt]
        rw [hfn, mem_applyLabels]
        left
        exact ⟨(hasLabel_iff t _).mp htInbox, List.not_mem_nil _⟩
      · exact hlast

/-- C6 witness: the sweep statement applied to a concrete state holding a
stale age label. -/
theorem append_too_old_labels_sweep_witness :
    ((([⟨0, ["INBOX", "⌛/40d"], [25]⟩, ⟨1, ["x3"], []⟩] : Mailbox).map MThread.id).Nodup
      ∧ (∀ t ∈ ([⟨0, ["INBOX", "⌛/40d"], [25]⟩, ⟨1, ["x3"], []⟩] : Mailbox),
          ∀ l ∈ t.labels, l ∈ ["INBOX", "⌛/40d", "x3"]))
    ∧ ((∀ u ∈ (append_too_old_labels
          ⟨["INBOX", "⌛/40d", "x3"],
           [⟨0, ["INBOX", "⌛/40d"], [25]⟩, ⟨1, ["x3"], []⟩]⟩).threads,
        (u.labels.filter age_label_matches).length ≤ 1)
      ∧ (∀ nm ∈ (append_too_old_labels
            ⟨["INBOX", "⌛/40d", "x3"],
             [⟨0, ["INBOX", "⌛/40d"], [25]⟩, ⟨1, ["x3"], []⟩]⟩).labels,
          age_label_matches nm = true →
          ∃ u ∈ (append_too_old_labels
              ⟨["INBOX", "⌛/40d", "x3"],
               [⟨0, ["INBOX", "⌛/40d"], [25]⟩, ⟨1, ["x3"], []⟩]⟩).threads,
            nm ∈ u.labels ∧ hasLabel u "INBOX" = true
            ∧ ∃ age, u.messages.getLast? = some age ∧ MIN_AGE_TO_APPEND_LABEL ≤ age
                ∧ nm = LABEL_NS ++ age_string age)) :=
  ⟨⟨by decide, by decide⟩,
    append_too_old_labels_sweep
      ⟨["INBOX", "⌛/40d", "x3"], [⟨0, ["INBOX", "⌛/40d"], [25]⟩, ⟨1, ["x3"], []⟩]⟩
      (by decide) (by decide)⟩
